import Mathlib

/-!
Verification of the POSIX-backed tiled Merkle log storage engine
(`storage/posix/files.go` of trillian-tessera) against its specification.

The Go code is shallowly embedded: the filesystem is an association list
from path strings to file nodes (regular files carry an abstract payload
and an mtime; symlinks carry a target path), and each function of
`files.go` becomes a Lean function over that state.  External
collaborators that are not part of the source tree (the `layout` path
helpers, the `rfc6962` hasher, `storage.Integrate`) are modelled from the
spec, each with a doc comment saying so.  SHA-256 is abstracted as the
free algebra `Hash` (empty string hash, leaf hash, interior node hash),
which is faithful for all reasoning that does not depend on collisions.
-/

deriving instance DecidableEq for Except

namespace Posix

/-- Abstract 32-byte hash values: the free algebra generated by the
RFC 6962 hashing operations.  `Hash.empty` models `SHA-256("")` (the
empty root), `Hash.leaf bs` models the leaf hash of an entry, and
`Hash.node l r` models the interior-node hash `SHA-256(0x01 || l || r)`. -/
inductive Hash where
  | empty : Hash
  | leaf (bs : List Nat) : Hash
  | node (l r : Hash) : Hash
deriving DecidableEq, Repr

/-- Largest power of two strictly smaller than `n` (for `n ≥ 2`), computed
by doubling with fuel so that it reduces in the kernel. -/
def pow2LtF : Nat → Nat → Nat → Nat
  | 0, _, k => k
  | fuel + 1, n, k => if 2 * k < n then pow2LtF fuel n (2 * k) else k

/-- Largest power of two strictly smaller than `n`, for `n ≥ 2`. -/
def pow2Lt (n : Nat) : Nat := pow2LtF n n 1

example : pow2Lt 2 = 1 := by decide
example : pow2Lt 3 = 2 := by decide
example : pow2Lt 4 = 2 := by decide
example : pow2Lt 5 = 4 := by decide
example : pow2Lt 256 = 128 := by decide
example : pow2Lt 257 = 256 := by decide

/-- Modelled from the spec: RFC 6962 Merkle tree head over a list of leaf
hashes (the `rfc6962` package is not under `src/`).  `MTH([]) = SHA-256("")`,
`MTH([h]) = h`, and for `n ≥ 2` the list is split at `k`, the largest power
of two strictly smaller than `n`.  The first argument is recursion fuel;
any fuel `≥ length` computes the true value, and `mth` below supplies it. -/
def mthF : Nat → List Hash → Hash
  | _, [] => .empty
  | _, [h] => h
  | 0, _ => .empty
  | fuel + 1, l =>
    let k := pow2Lt l.length
    .node (mthF fuel (l.take k)) (mthF fuel (l.drop k))

/-- Modelled from the spec: the RFC 6962 Merkle tree head of a leaf-hash
list (`mthF` with sufficient fuel). -/
def mth (l : List Hash) : Hash := mthF l.length l

example : mth [] = .empty := by decide
example : mth [.leaf [1]] = .leaf [1] := by decide
example : mth [.leaf [1], .leaf [2], .leaf [3]] =
    .node (.node (.leaf [1]) (.leaf [2])) (.leaf [3]) := by decide
example : mth [.leaf [1], .leaf [2], .leaf [3], .leaf [4], .leaf [5]] =
    .node (.node (.node (.leaf [1]) (.leaf [2])) (.node (.leaf [3]) (.leaf [4])))
      (.leaf [5]) := by decide

/-- Errors surfaced by the storage engine (collapsing Go error values to
their distinguishable kinds; `notExist` is `os.ErrNotExist`, which the code
tests with `errors.Is`). -/
inductive Err where
  | notExist : Err
  | unmarshalErr : Err
  | parseErr : Err
  | versionMismatch : Err
  | logicError : Err
  | integrateErr : Err
  | newCPErr : Err
  | intervalErr : Err
deriving DecidableEq, Repr

/-- Payload of a regular file.  Entry bundles, tiles and checkpoints are
raw bytes; `.state` is the JSON-marshalled `treeState{size, root}` blob
(`json.Marshal`/`Unmarshal` abstracted as an injective coding); `.nat` is
the ASCII-decimal version file (`fmt.Sprintf("%d", v)` / `strconv.ParseUint`
abstracted likewise). -/
inductive FData where
  | raw (bs : List Nat) : FData
  | state (size : Nat) (root : Hash) : FData
  | nat (n : Nat) : FData
deriving DecidableEq, Repr

/-- A filesystem node: a regular file with payload and mtime, or a symlink. -/
inductive FNode where
  | file (d : FData) (mtime : Nat) : FNode
  | symlink (target : String) : FNode
deriving DecidableEq, Repr

/-- The filesystem: an association list from absolute path to node. -/
abbrev FS := List (String × FNode)

/-- Look a path up in the filesystem. -/
def lookupFS : FS → String → Option FNode
  | [], _ => none
  | (k, n) :: rest, q => if q = k then some n else lookupFS rest q

/-- Remove every binding of a path. -/
def eraseFS : FS → String → FS
  | [], _ => []
  | (k, n) :: rest, q => if q = k then eraseFS rest q else (k, n) :: eraseFS rest q

/-- Bind a path to a node, replacing any previous binding. -/
def insertFS (fs : FS) (k : String) (n : FNode) : FS := (k, n) :: eraseFS fs k

@[simp] theorem lookupFS_nil (q : String) : lookupFS [] q = none := rfl

theorem lookupFS_cons (k : String) (n : FNode) (rest : FS) (q : String) :
    lookupFS ((k, n) :: rest) q = if q = k then some n else lookupFS rest q := rfl

theorem lookupFS_eraseFS (p q : String) : ∀ fs : FS,
    lookupFS (eraseFS fs p) q = if q = p then none else lookupFS fs q := by
  intro fs
  induction fs with
  | nil => simp [eraseFS]
  | cons hd tl ih =>
    obtain ⟨k, n⟩ := hd
    simp only [eraseFS]
    by_cases hkp : p = k
    · simp only [if_pos hkp, ih, lookupFS_cons]
      by_cases hqp : q = p
      · simp [hqp]
      · simp [hqp, hkp ▸ hqp]
    · simp only [if_neg hkp, lookupFS_cons]
      by_cases hqk : q = k
      · have hqp : ¬ q = p := fun h => hkp (h ▸ hqk)
        have hkp2 : ¬ k = p := fun h => hkp h.symm
        simp [hqk, hqp, hkp2]
      · simp only [if_neg hqk]
        exact ih

theorem lookupFS_insertFS (fs : FS) (p : String) (n : FNode) (q : String) :
    lookupFS (insertFS fs p n) q = if q = p then some n else lookupFS fs q := by
  by_cases h : q = p <;>
    simp [insertFS, lookupFS_cons, h, lookupFS_eraseFS]

@[simp] theorem lookupFS_insertFS_self (fs : FS) (p : String) (n : FNode) :
    lookupFS (insertFS fs p n) p = some n := by
  simp [lookupFS_insertFS]

theorem lookupFS_insertFS_ne (fs : FS) (p : String) (n : FNode) (q : String)
    (h : q ≠ p) : lookupFS (insertFS fs p n) q = lookupFS fs q := by
  simp [lookupFS_insertFS, h]

/-- Read a file, following at most one symlink (the engine only ever
creates symlinks that point directly at regular full-tile files).
Models `os.ReadFile`; a dangling path is `os.ErrNotExist`. -/
def readFileM (fs : FS) (p : String) : Except Err FData :=
  match lookupFS fs p with
  | none => .error .notExist
  | some (.file d _) => .ok d
  | some (.symlink t) =>
    match lookupFS fs t with
    | some (.file d _) => .ok d
    | _ => .error .notExist

/-- Mtime of the file at a path, following one symlink.  Models `os.Stat`
(`none` is `os.ErrNotExist`). -/
def statMtime (fs : FS) (p : String) : Option Nat :=
  match lookupFS fs p with
  | none => none
  | some (.file _ m) => some m
  | some (.symlink t) =>
    match lookupFS fs t with
    | some (.file _ m) => some m
    | _ => none

/-- Models `os.WriteFile`: create or truncate the file at `p`. -/
def writeFileM (fs : FS) (p : String) (d : FData) (now : Nat) : FS :=
  insertFS fs p (.file d now)

/-- Models `os.Rename`: atomically move the node at `src` over `dst`,
replacing whatever was there. -/
def renameM (fs : FS) (src dst : String) : Except Err FS :=
  match lookupFS fs src with
  | none => .error .notExist
  | some n => .ok (insertFS (eraseFS fs src) dst n)

/-- Embeds `createExclusive` (files.go:542): write the data to
`path + ".temp"` and rename it over `path`.  Despite the name, an existing
destination is silently replaced by the rename. -/
def createExclusive (fs : FS) (f : String) (d : FData) (now : Nat) :
    Except Err FS := do
  let fs1 := writeFileM fs (f ++ ".temp") d now
  renameM fs1 (f ++ ".temp") f

theorem eraseFS_eraseFS_self (p : String) : ∀ fs : FS,
    eraseFS (eraseFS fs p) p = eraseFS fs p := by
  intro fs
  induction fs with
  | nil => rfl
  | cons hd tl ih =>
    obtain ⟨k, n⟩ := hd
    by_cases h : p = k
    · subst h
      simp [eraseFS, ih]
    · simp [eraseFS, h, ih]

theorem eraseFS_insertFS_self (fs : FS) (p : String) (n : FNode) :
    eraseFS (insertFS fs p n) p = eraseFS fs p := by
  simp [insertFS, eraseFS, eraseFS_eraseFS_self]

theorem createExclusive_eq (fs : FS) (f : String) (d : FData) (now : Nat) :
    createExclusive fs f d now =
      .ok (insertFS (eraseFS fs (f ++ ".temp")) f (.file d now)) := by
  simp only [createExclusive, writeFileM, renameM, lookupFS_insertFS_self,
    eraseFS_insertFS_self, bind, Except.bind]

/-- Zero-pad a number below 1000 to three decimal digits (`%03d`). -/
def pad3 (n : Nat) : String :=
  if n < 10 then "00" ++ toString n
  else if n < 100 then "0" ++ toString n
  else toString n

/-- Base-1000 digit groups of an index, most significant first (fuelled so
it reduces in the kernel; fuel `n` always suffices). -/
def chunksF : Nat → Nat → List Nat
  | 0, n => [n]
  | fuel + 1, n => if n < 1000 then [n] else chunksF fuel (n / 1000) ++ [n % 1000]

/-- Base-1000 digit groups of an index, most significant first. -/
def chunks (n : Nat) : List Nat := chunksF n n

/-- Render digit groups: all but the last as `xNNN/`, the last as `NNN`. -/
def pathJoin : List Nat → String
  | [] => ""
  | [g] => pad3 g
  | g :: gs => "x" ++ pad3 g ++ "/" ++ pathJoin gs

/-- Modelled from the spec: the dense prefix-chunked rendering of an index
used by the `layout` package (which is not under `src/`; its unit tests
are, and the examples below mirror them). -/
def pathFor (i : Nat) : String := pathJoin (chunks i)

/-- Suffix appended to a path for a partial file: empty when full. -/
def partSuffix (p : Nat) : String := if p = 0 then "" else ".p/" ++ toString p

/-- Modelled from the spec: `layout` entry-bundle path for a bundle index
and partial size (0 = full).  This is the engine's default
`options.EntriesPathFunc`. -/
def entriesPath (i p : Nat) : String := "tile/entries/" ++ (pathFor i ++ partSuffix p)

/-- Modelled from the spec: `layout` tile path without the partial suffix. -/
def tilePathBase (level i : Nat) : String := "tile/" ++ toString level ++ "/" ++ pathFor i

/-- Modelled from the spec: `layout` tile path for level, index and partial
size (0 = full). -/
def tilePath (level i p : Nat) : String := tilePathBase level i ++ partSuffix p

example : entriesPath 0 0 = "tile/entries/000" := by decide
example : entriesPath 1 1 = "tile/entries/001.p/1" := by decide
example : entriesPath 123456789 0 = "tile/entries/x123/x456/789" := by decide
example : entriesPath 123456789000 0 = "tile/entries/x123/x456/x789/000" := by decide
example : entriesPath 0 8 = "tile/entries/000.p/8" := by decide
example : entriesPath 255 253 = "tile/entries/255.p/253" := by decide
example : tilePath 0 0 0 = "tile/0/000" := by decide
example : tilePath 0 0 255 = "tile/0/000.p/255" := by decide
example : tilePath 1 0 4 = "tile/1/000.p/4" := by decide
example : tilePath 15 455667 0 = "tile/15/x455/667" := by decide
example : tilePath 3 1234567 0 = "tile/3/x001/x234/567" := by decide

/-- Path of the published checkpoint (`layout.CheckpointPath`). -/
def cpPath : String := "checkpoint"

/-- Path of the private tree-state blob (files.go:469, 483). -/
def tsPath : String := ".state/treeState"

/-- Path of the compatibility-version file (files.go:435). -/
def versionPath : String := ".state/version"

/-- The entry-bundle width `layout.EntryBundleWidth` (spec: `W = 256`). -/
def entryBundleWidth : Nat := 256

/-- Embeds `readTreeState` (files.go:482): read and unmarshal the stored
`(size, root)`.  The Go wrapper keeps `os.ErrNotExist` observable through
`errors.Is`, so the error is passed through unchanged. -/
def readTreeState (fs : FS) : Except Err (Nat × Hash) :=
  match readFileM fs tsPath with
  | .error e => .error e
  | .ok (.state s r) => .ok (s, r)
  | .ok _ => .error .unmarshalErr

/-- Embeds `writeTreeState` (files.go:463): marshal and `createExclusive`
the `(size, root)` blob.  The non-blocking channel notification has no
filesystem effect and is omitted. -/
def writeTreeState (fs : FS) (size : Nat) (root : Hash) (now : Nat) :
    Except Err FS :=
  createExclusive fs tsPath (.state size root) now

/-- Embeds lines 194–200 of `sequenceBatch` (and 627–633 of `buildTree`):
read the tree size, treating `os.ErrNotExist` as size 0 and surfacing any
other error. -/
def readSizeOr0 (fs : FS) : Except Err Nat :=
  match readTreeState fs with
  | .ok (s, _) => .ok s
  | .error .notExist => .ok 0
  | .error e => .error e

/-- Embeds `ensureVersion` (files.go:434): create the version file if it
is absent, otherwise require it to parse to the expected version. -/
def ensureVersion (fs : FS) (version : Nat) (now : Nat) : Except Err FS :=
  match lookupFS fs versionPath with
  | none => createExclusive fs versionPath (.nat version) now
  | some _ =>
    match readFileM fs versionPath with
    | .error e => .error e
    | .ok (.nat v) => if v = version then .ok fs else .error .versionMismatch
    | .ok _ => .error .parseErr

/-- The injected checkpoint signer `options.NewCPFunc`: from `(size, root)`
to checkpoint bytes, or failure. -/
abbrev NewCPFunc := Nat → Hash → Option (List Nat)

/-- Unthrottled tail of `publishCheckpoint` (files.go:522–536): read the
tree state, invoke the injected signer, and `createExclusive` the result
over `checkpoint`. -/
def publishInner (ncp : NewCPFunc) (now : Nat) (fs : FS) : Except Err FS :=
  match readTreeState fs with
  | .error e => .error e
  | .ok (size, root) =>
    match ncp size root with
    | none => .error .newCPErr
    | some bs => createExclusive fs cpPath (.raw bs) now

/-- Embeds `publishCheckpoint` (files.go:498): skip when the published
checkpoint is younger than `minStaleness`, otherwise sign the current tree
state and `createExclusive` it over `checkpoint`.  The advisory
`publish.lock` serialises concurrent callers and has no bearing on the
single-execution semantics modelled here. -/
def publishCheckpoint (ncp : NewCPFunc) (now minStaleness : Nat) (fs : FS) :
    Except Err FS :=
  match statMtime fs cpPath with
  | none => publishInner ncp now fs
  | some m =>
    if now - m < minStaleness then .ok fs else publishInner ncp now fs

/-- Embeds `initialise` (files.go:399): when `create` is set, write the
empty tree state and (if a signer is configured) publish an initial
checkpoint; then check the compatibility version and load the tree state.
`os.MkdirAll` has no effect in the path-map model. -/
def initialise (create : Bool) (ncp : Option NewCPFunc) (now : Nat)
    (fs : FS) : Except Err FS :=
  let created : Except Err FS :=
    if create then
      match writeTreeState fs 0 .empty now with
      | .error e => .error e
      | .ok fs' =>
        match ncp with
        | some f => publishCheckpoint f now 0 fs'
        | none => .ok fs'
    else .ok fs
  match created with
  | .error e => .error e
  | .ok fs1 =>
    match ensureVersion fs1 1 now with
    | .error e => .error e
    | .ok fs2 =>
      match readTreeState fs2 with
      | .error e => .error e
      | .ok _ => .ok fs2

/-- Embeds `writeBundle` (files.go:383): `createExclusive` the bundle
bytes, ignoring an already-exists collision.  In the model (as on POSIX,
where the write is a truncating write plus rename) `createExclusive`
never reports `os.ErrExist`, so only genuine failures propagate. -/
def writeBundle (fs : FS) (index par : Nat) (bundle : List Nat)
    (now : Nat) : Except Err FS :=
  match createExclusive fs (entriesPath index par) (.raw bundle) now with
  | .ok fs' => .ok fs'
  | .error e => .error e

/-- Relink step of `writeTile` (files.go:363–376): remove the stale
temporary link, create a symlink to the full tile at it, and rename it
over one partial-tile path. -/
def relinkOne (tPath : String) (fs : FS) (p : String) : Except Err FS :=
  let tmp := tPath ++ ".link"
  let fs1 := insertFS (eraseFS fs tmp) tmp (.symlink tPath)
  renameM fs1 tmp p

/-- Paths in the filesystem matching the partial-tile glob
`fmt.Sprintf("%s.p/*", tPath)`: all existing keys extending
`tPath ++ ".p/"`. -/
def globKeys (fs : FS) (pre : String) : List String :=
  (fs.map Prod.fst).filter fun k => pre.data.isPrefixOf k.data

/-- Embeds `writeTile` (files.go:346): write the tile bytes, and if the
tile is full (`par = 0`) atomically replace every partial-tile sibling
with a symlink to the full tile. -/
def writeTile (fs : FS) (level index par : Nat) (t : List Nat)
    (now : Nat) : Except Err FS :=
  match createExclusive fs (tilePath level index par) (.raw t) now with
  | .error e => .error e
  | .ok fs1 =>
    if par = 0 then
      List.foldlM (relinkOne (tilePath level index par)) fs1
        (globKeys fs1 (tilePath level index par ++ ".p/"))
    else
      .ok fs1

/-- An opaque caller-supplied log entry (`tessera.Entry`): its bundle
serialisation at an assigned index (`MarshalBundleData`) and its Merkle
leaf hash (`LeafHash`). -/
structure Entry where
  bundleData : Nat → List Nat
  leafHash : Hash

/-- One `writeBundle` call recorded by the sequencer: bundle index,
partial size (0 = full) and serialised contents. -/
structure BWrite where
  idx : Nat
  par : Nat
  data : List Nat
deriving DecidableEq, Repr

/-- Embeds the entry loop of `sequenceBatch` (files.go:226–244) over the
already-serialised entry data: append each serialisation to the working
buffer, and each time the in-bundle count reaches `entryBundleWidth` emit
a full-bundle write, advance the bundle index and reset the buffer.
Returns the emitted full-bundle writes and the final buffer, bundle index
and in-bundle count. -/
def seqLoop : List (List Nat) → List Nat → Nat → Nat →
    List BWrite × List Nat × Nat × Nat
  | [], buf, bIdx, cnt => ([], buf, bIdx, cnt)
  | d :: ds, buf, bIdx, cnt =>
    let buf' := buf ++ d
    let cnt' := cnt + 1
    if cnt' = entryBundleWidth then
      let r := seqLoop ds [] (bIdx + 1) 0
      (⟨bIdx, 0, buf'⟩ :: r.1, r.2)
    else
      seqLoop ds buf' bIdx cnt'

/-- Embeds the post-loop trailing-bundle step of `sequenceBatch`
(files.go:247–257): if entries remain in the buffer, refuse a count above
`entryBundleWidth` (the belt-and-braces logic-error guard) and otherwise
emit one partial bundle whose suffix is the remaining count. -/
def finishBatch (buf : List Nat) (bIdx cnt : Nat) :
    Except Err (List BWrite) :=
  if cnt > 0 then
    if cnt > entryBundleWidth then .error .logicError
    else .ok [⟨bIdx, cnt, buf⟩]
  else .ok []

/-- The complete list of bundle writes performed by `sequenceBatch` for a
batch whose serialisations are `datas`, starting from log size `size` with
seed bytes `seed` (the pre-existing partial bundle, empty when none). -/
def bundleWrites (size : Nat) (seed : List Nat) (datas : List (List Nat)) :
    Except Err (List BWrite) :=
  match finishBatch
      (seqLoop datas seed (size / entryBundleWidth) (size % entryBundleWidth)).2.1
      (seqLoop datas seed (size / entryBundleWidth) (size % entryBundleWidth)).2.2.1
      (seqLoop datas seed (size / entryBundleWidth) (size % entryBundleWidth)).2.2.2 with
  | .error e => .error e
  | .ok tw =>
    .ok ((seqLoop datas seed (size / entryBundleWidth)
      (size % entryBundleWidth)).1 ++ tw)

/-- Embeds the seeding step of `sequenceBatch` (files.go:209–219): when
the current size does not fall on a bundle boundary, read the existing
partial bundle and start the buffer from its bytes. -/
def seedBundle (fs : FS) (size : Nat) : Except Err (List Nat) :=
  if size % entryBundleWidth > 0 then
    match readFileM fs
        (entriesPath (size / entryBundleWidth) (size % entryBundleWidth)) with
    | .error e => .error e
    | .ok (.raw bs) => .ok bs
    | .ok _ => .error .unmarshalErr
  else .ok []

/-- Bundle writes of `sequenceBatch` on a given filesystem: seed, then run
the entry loop over `MarshalBundleData(seq + i)` for each entry. -/
def batchWrites (fs : FS) (size : Nat) (entries : List Entry) :
    Except Err (List BWrite) :=
  match seedBundle fs size with
  | .error e => .error e
  | .ok seed =>
    bundleWrites size seed
      (entries.enum.map fun p => p.2.bundleData (size + p.1))

/-- Apply a list of bundle writes to the filesystem via `writeBundle`
(which, in the model, always succeeds). -/
def applyWrites (fs : FS) (now : Nat) (ws : List BWrite) : FS :=
  ws.foldl
    (fun f w =>
      match writeBundle f w.idx w.par w.data now with
      | .ok f' => f'
      | .error _ => f)
    fs

/-- State of one log: the filesystem under the storage path, and the
abstract tile store.  `tiles` is the list of leaf hashes the on-disk
Merkle tiles collectively cover; the tile file contents themselves are
internal to `storage.Integrate`, which is not under `src/`. -/
structure LogState where
  fs : FS
  tiles : List Hash
deriving DecidableEq, Repr

/-- Modelled from the spec: `storage.Integrate` is not under `src/` and
the spec places the tile-hashing internals out of scope, describing only
the contract (§4.5, §8): given the tiles covering the first `fromSeq`
leaves and a contiguous run of new leaf hashes, it returns the new size,
the RFC 6962 root over all leaves, and the updated tiles.  A `fromSeq`
inconsistent with the current tiles is an integration error. -/
def Integrate (prior : List Hash) (fromSeq : Nat) (newHashes : List Hash) :
    Except Err (Nat × Hash × List Hash) :=
  if fromSeq = prior.length then
    let all := prior ++ newHashes
    .ok (all.length, mth all, all)
  else .error .integrateErr

/-- Embeds `doIntegrate` (files.go:268): integrate the new leaf hashes
from `fromSeq` and persist the new tree state.  The per-tile `storeTile`
writes go to tile paths internal to the abstracted tile store. -/
def doIntegrate (st : LogState) (now fromSeq : Nat) (hashes : List Hash) :
    Except Err LogState :=
  match Integrate st.tiles fromSeq hashes with
  | .error e => .error e
  | .ok (newSize, newRoot, newTiles) =>
    match writeTreeState st.fs newSize newRoot now with
    | .error e => .error e
    | .ok fs' => .ok ⟨fs', newTiles⟩

/-- Body of `sequenceBatch` after the tree size has been read
(files.go:204–264): empty batches return immediately; otherwise write the
entry bundles and integrate the new leaves. -/
def seqAtSize (st : LogState) (now : Nat) (entries : List Entry)
    (size : Nat) : Except Err LogState :=
  if entries.isEmpty then .ok st
  else
    match batchWrites st.fs size entries with
    | .error e => .error e
    | .ok ws =>
      doIntegrate ⟨applyWrites st.fs now ws, st.tiles⟩ now size
        (entries.map Entry.leafHash)

/-- Embeds `sequenceBatch` (files.go:178): under the double lock (which
serialises calls and is invisible to single-execution semantics), read
the current size — absence of tree state meaning 0 — then sequence the
batch. -/
def sequenceBatch (st : LogState) (now : Nat) (entries : List Entry) :
    Except Err LogState :=
  match readSizeOr0 st.fs with
  | .error e => .error e
  | .ok size => seqAtSize st now entries size

/-- The injected `BundleHasherFunc`: parse an entry bundle back into the
leaf hashes of its entries. -/
abbrev BundleHasherFunc := List Nat → Except Err (List Hash)

/-- One element of `layout.Range`: bundle index, partial size under the
source tree, and the slice `[first, first + n)` of its hashes to use. -/
structure RangeInfo where
  index : Nat
  par : Nat
  first : Nat
  n : Nat
deriving DecidableEq, Repr

/-- Modelled from the spec: `layout.Range(from, to, sourceSize)` is not
under `src/`.  It enumerates the entry bundles covering `[lo, hi)`,
giving for each its partial size in a source tree of `sourceSize` leaves
and the sub-range of its entries that falls inside `[lo, hi)`. -/
def rangeList (lo hi sourceSize : Nat) : List RangeInfo :=
  if hi ≤ lo then []
  else
    let bFirst := lo / entryBundleWidth
    let bLast := (hi - 1) / entryBundleWidth
    (List.range (bLast - bFirst + 1)).map fun j =>
      let bi := bFirst + j
      let first := if j = 0 then lo % entryBundleWidth else 0
      let stop := min hi ((bi + 1) * entryBundleWidth)
      let par :=
        if (bi + 1) * entryBundleWidth ≤ sourceSize then 0
        else sourceSize - bi * entryBundleWidth
      ⟨bi, par, first, stop - (bi * entryBundleWidth + first)⟩

/-- Embeds `fetchLeafHashes` (files.go:649): read at most 300 bundles
covering `[lo, hi)`, parse each with the injected bundle hasher, and
collect the relevant slice of leaf hashes from each. -/
def fetchLeafHashes (bh : BundleHasherFunc) (fs : FS)
    (lo hi sourceSize : Nat) : Except Err (List Hash) :=
  ((rangeList lo hi sourceSize).take 300).foldlM
    (fun acc ri =>
      match readFileM fs (entriesPath ri.index ri.par) with
      | .error e => .error e
      | .ok (.raw bs) =>
        match bh bs with
        | .error e => .error e
        | .ok hashes => .ok (acc ++ ((hashes.drop ri.first).take ri.n))
      | .ok _ => .error .unmarshalErr)
    []

/-- Body of `buildTree` after the tree size has been read
(files.go:637–646): fetch the next chunk of leaf hashes from the stored
bundles and integrate them. -/
def buildAtSize (bh : BundleHasherFunc) (st : LogState) (now targetSize : Nat)
    (size : Nat) : Except Err LogState :=
  match fetchLeafHashes bh st.fs size targetSize targetSize with
  | .error e => .error e
  | .ok lh => doIntegrate st now size lh

/-- Embeds `buildTree` (files.go:611): under the double lock, read the
current size — absence of tree state meaning 0 — then integrate leaf
hashes recovered from the stored entry bundles up to `targetSize`. -/
def buildTree (bh : BundleHasherFunc) (st : LogState) (now targetSize : Nat) :
    Except Err LogState :=
  match readSizeOr0 st.fs with
  | .error e => .error e
  | .ok size => buildAtSize bh st now targetSize size

/-- The recognised storage options (`options.StorageOptions`), restricted
to the fields the POSIX engine consults.  `checkpointInterval` is in
nanoseconds, as Go's `time.Duration`. -/
structure StorageOpts where
  checkpointInterval : Nat
  newCP : Option NewCPFunc

/-- One second in nanoseconds: `minCheckpointInterval` (files.go:51). -/
def minCheckpointInterval : Nat := 1000000000

/-- Embeds `New` (files.go:75): reject a checkpoint interval below the
minimum, then initialise the storage.  The queue and the background
publisher task are concurrency machinery with no effect on the
filesystem at construction time. -/
def New (opt : StorageOpts) (create : Bool) (now : Nat) (fs : FS) :
    Except Err FS :=
  if opt.checkpointInterval < minCheckpointInterval then .error .intervalErr
  else initialise create opt.newCP now fs

/-- Embeds `NewMigrationTarget` (files.go:560): initialise the storage
for the migration lifecycle.  The migration storage carries no checkpoint
signer (`newCP` is nil) and performs no option validation. -/
def NewMigrationTarget (_opt : StorageOpts) (create : Bool) (now : Nat)
    (fs : FS) : Except Err FS :=
  initialise create none now fs

/-- Log states reachable by the engine: a freshly created log, followed by
any succession of successful `sequenceBatch` and `buildTree` calls. -/
inductive Reachable : LogState → Prop where
  | init (ncp : Option NewCPFunc) (now : Nat) (fs' : FS) :
      initialise true ncp now [] = .ok fs' → Reachable ⟨fs', []⟩
  | seq (st st' : LogState) (now : Nat) (entries : List Entry) :
      Reachable st → sequenceBatch st now entries = .ok st' → Reachable st'
  | build (bh : BundleHasherFunc) (st st' : LogState) (now targetSize : Nat) :
      Reachable st → buildTree bh st now targetSize = .ok st' → Reachable st'

theorem readFileM_insertFS_self (fs : FS) (p : String) (d : FData) (m : Nat) :
    readFileM (insertFS fs p (.file d m)) p = .ok d := by
  simp [readFileM, lookupFS_insertFS_self]

theorem statMtime_insertFS_self (fs : FS) (p : String) (d : FData) (m : Nat) :
    statMtime (insertFS fs p (.file d m)) p = some m := by
  simp [statMtime, lookupFS_insertFS_self]

theorem writeBundle_eq (fs : FS) (i p : Nat) (b : List Nat) (now : Nat) :
    writeBundle fs i p b now =
      .ok (insertFS (eraseFS fs (entriesPath i p ++ ".temp"))
        (entriesPath i p) (.file (.raw b) now)) := by
  unfold writeBundle
  rw [createExclusive_eq]

/-- C5: `writeBundle` is idempotent — for every bundle index, partial
suffix and byte string, a second call with the same arguments after a
successful first call returns no error, and the bytes readable at the
bundle path are identical to those after the first call. -/
theorem writeBundle_idempotent (fs : FS) (i p : Nat) (b : List Nat)
    (now now' : Nat) :
    ∃ fs1 fs2, writeBundle fs i p b now = .ok fs1 ∧
      writeBundle fs1 i p b now' = .ok fs2 ∧
      readFileM fs1 (entriesPath i p) = .ok (.raw b) ∧
      readFileM fs2 (entriesPath i p) = readFileM fs1 (entriesPath i p) := by
  refine ⟨_, _, writeBundle_eq fs i p b now, writeBundle_eq _ i p b now', ?_, ?_⟩
  · exact readFileM_insertFS_self _ _ _ _
  · rw [readFileM_insertFS_self, readFileM_insertFS_self]

/-- C10: `sequenceBatch` on an empty batch returns success and leaves the
log state — filesystem (hence bundles, tiles and stored tree state) and
tile store — completely unchanged, provided the tree-state read itself
does not fail (absence still counts as size 0). -/
theorem sequenceBatch_empty_noop (st : LogState) (now s : Nat)
    (h : readSizeOr0 st.fs = .ok s) :
    sequenceBatch st now [] = .ok st := by
  simp [sequenceBatch, h, seqAtSize]

theorem sequenceBatch_empty_noop_witness :
    readSizeOr0 ([] : FS) = .ok 0 ∧
      sequenceBatch ⟨[], []⟩ 0 [] = .ok ⟨[], []⟩ :=
  ⟨by decide, sequenceBatch_empty_noop ⟨[], []⟩ 0 0 (by decide)⟩

/-- C7 counterexample: `NewMigrationTarget` is a constructor of the engine
that performs no checkpoint-interval validation — it succeeds even when
the requested interval is shorter than the permitted minimum, refuting
the claim that every constructor rejects such configurations. -/
theorem newMigrationTarget_accepts_short_interval :
    (⟨0, none⟩ : StorageOpts).checkpointInterval < minCheckpointInterval ∧
      (NewMigrationTarget ⟨0, none⟩ true 0 []).isOk = true := by
  decide

/-- C7 (amended): `New` — the appender-lifecycle constructor, which is the
one that runs a checkpoint publisher — rejects every options set whose
`CheckpointInterval` is below one second, returning an error and no
storage; `NewMigrationTarget` performs no such validation. -/
theorem new_rejects_short_interval (opt : StorageOpts) (create : Bool)
    (now : Nat) (fs : FS)
    (h : opt.checkpointInterval < minCheckpointInterval) :
    New opt create now fs = .error .intervalErr := by
  simp [New, h]

theorem new_rejects_short_interval_witness :
    (⟨999999999, none⟩ : StorageOpts).checkpointInterval <
        minCheckpointInterval ∧
      New ⟨999999999, none⟩ true 0 [] = .error .intervalErr :=
  ⟨by decide, new_rejects_short_interval ⟨999999999, none⟩ true 0 [] (by decide)⟩

/-- C6: `publishCheckpoint` never rewrites a fresh checkpoint.  First
conjunct: when the checkpoint file is younger than `minStaleness`, the
call succeeds, changes nothing, and its result does not depend on the
signer (it is `.ok fs` for an arbitrary `ncp`, so `NewCP` is never
consulted).  Second conjunct: whatever the first of two back-to-back
calls did, the second changes nothing, so the file is rewritten at most
once. -/
theorem publishInner_ok_stat (ncp : NewCPFunc) (now : Nat) (fs fs1 : FS)
    (h : publishInner ncp now fs = .ok fs1) :
    statMtime fs1 cpPath = some now := by
  unfold publishInner at h
  split at h
  · cases h
  · split at h
    · cases h
    · rw [createExclusive_eq] at h
      injection h with h
      subst h
      exact statMtime_insertFS_self _ _ _ _

theorem publishCheckpoint_throttles (now stale : Nat) :
    (∀ (ncp : NewCPFunc) (fs : FS) (d : FData) (m : Nat),
        lookupFS fs cpPath = some (.file d m) → now - m < stale →
        publishCheckpoint ncp now stale fs = .ok fs)
    ∧ (∀ (ncp ncp' : NewCPFunc) (fs fs1 : FS), 0 < stale →
        publishCheckpoint ncp now stale fs = .ok fs1 →
        publishCheckpoint ncp' now stale fs1 = .ok fs1) := by
  constructor
  · intro ncp fs d m hl hfresh
    simp [publishCheckpoint, statMtime, hl, hfresh]
  · intro ncp ncp' fs fs1 hstale h1
    have hwrote : publishInner ncp now fs = .ok fs1 →
        publishCheckpoint ncp' now stale fs1 = .ok fs1 := by
      intro hin
      have hst : statMtime fs1 cpPath = some now :=
        publishInner_ok_stat ncp now fs fs1 hin
      simp [publishCheckpoint, hst, Nat.sub_self, hstale]
    rw [publishCheckpoint] at h1
    split at h1
    · exact hwrote h1
    · next m hstat =>
      split at h1
      · next hfresh =>
        injection h1 with h
        subst h
        simp [publishCheckpoint, hstat, hfresh]
      · exact hwrote h1

/-- A pre-existing log: version file `1`, tree state `(7, leaf-hash)`. -/
def fsExisting : FS :=
  [(versionPath, .file (.nat 1) 0), (tsPath, .file (.state 7 (.leaf [1])) 0)]

/-- C4 counterexample: constructing with `create = true` over a path that
already contains a log (version file present, tree state of size 7)
succeeds rather than failing — `ensureVersion` accepts a matching version
file — and the pre-existing tree state is overwritten with the empty
state, so the existing log state is modified, refuting both halves of
the claim. -/
theorem initialise_create_on_existing_log :
    readTreeState fsExisting = .ok (7, .leaf [1]) ∧
      (initialise true none 5 fsExisting).isOk = true ∧
      (initialise true none 5 fsExisting).toOption.map readTreeState =
        some (.ok (0, .empty)) := by
  decide

theorem lookupFS_writeTreeState (fs fs' : FS) (size : Nat) (root : Hash)
    (now : Nat) (h : writeTreeState fs size root now = .ok fs') (q : String)
    (hq1 : q ≠ tsPath) (hq2 : q ≠ tsPath ++ ".temp") :
    lookupFS fs' q = lookupFS fs q := by
  rw [writeTreeState, createExclusive_eq] at h
  injection h with h
  subst h
  rw [lookupFS_insertFS_ne _ _ _ _ hq1, lookupFS_eraseFS, if_neg hq2]

/-- C4 (amended): `create = true` on a path that already holds a version
file is not detected as a collision: after unconditionally overwriting
the tree state with `(0, EmptyRoot)`, construction succeeds whenever the
stored version parses to the expected version `1`, and fails (with a
version-mismatch error) only when it differs. -/
theorem initialise_create_version_gate (fs : FS) (now v m : Nat)
    (hv : lookupFS fs versionPath = some (.file (.nat v) m)) :
    (v = 1 → ∃ fs', initialise true none now fs = .ok fs' ∧
        readTreeState fs' = .ok (0, .empty))
    ∧ (v ≠ 1 → initialise true none now fs = .error .versionMismatch) := by
  have hwts := createExclusive_eq fs tsPath (.state 0 .empty) now
  have hF : writeTreeState fs 0 .empty now =
      .ok (insertFS (eraseFS fs (tsPath ++ ".temp")) tsPath
        (.file (.state 0 .empty) now)) := hwts
  have hvF : lookupFS (insertFS (eraseFS fs (tsPath ++ ".temp")) tsPath
      (.file (.state 0 .empty) now)) versionPath =
      some (.file (.nat v) m) := by
    rw [lookupFS_insertFS_ne _ _ _ _ (by decide), lookupFS_eraseFS,
      if_neg (by decide)]
    exact hv
  have hrdv : readFileM (insertFS (eraseFS fs (tsPath ++ ".temp")) tsPath
      (.file (.state 0 .empty) now)) versionPath = .ok (.nat v) := by
    unfold readFileM
    rw [hvF]
  have hrdts : readTreeState (insertFS (eraseFS fs (tsPath ++ ".temp")) tsPath
      (.file (.state 0 .empty) now)) = .ok (0, .empty) := by
    unfold readTreeState readFileM
    rw [lookupFS_insertFS_self]
  constructor
  · intro h1
    subst h1
    refine ⟨_, ?_, hrdts⟩
    unfold initialise
    rw [if_pos rfl, hF]
    simp only
    unfold ensureVersion
    rw [hvF, hrdv]
    simp [hrdts]
  · intro h1
    unfold initialise
    rw [if_pos rfl, hF]
    simp only
    unfold ensureVersion
    rw [hvF, hrdv]
    simp [h1]

theorem initialise_create_version_gate_witness :
    lookupFS fsExisting versionPath = some (.file (.nat 1) 0) ∧
      ∃ fs', initialise true none 5 fsExisting = .ok fs' ∧
        readTreeState fs' = .ok (0, .empty) :=
  ⟨by decide,
    (initialise_create_version_gate fsExisting 5 1 0 (by decide)).1 rfl⟩

theorem lookupFS_ensureVersion (fs fs2 : FS) (v now : Nat)
    (h : ensureVersion fs v now = .ok fs2) (q : String)
    (hq1 : q ≠ versionPath) (hq2 : q ≠ versionPath ++ ".temp") :
    lookupFS fs2 q = lookupFS fs q := by
  unfold ensureVersion at h
  split at h
  · rw [createExclusive_eq] at h
    injection h with h
    subst h
    rw [lookupFS_insertFS_ne _ _ _ _ hq1, lookupFS_eraseFS, if_neg hq2]
  · split at h
    · cases h
    · next heq =>
      split at h
      · injection h with h
        subst h
        rfl
      · cases h
    · cases h

/-- C9 counterexample: `initialise` with `create = false` on a path whose
tree-state file is absent (here: only a matching version file exists)
surfaces the not-exist error instead of proceeding as a size-0 log,
refuting the claim for construction. -/
theorem initialise_errors_without_tree_state :
    initialise false none 0 [(versionPath, FNode.file (.nat 1) 0)] =
      .error .notExist := by
  decide

/-- C9 (amended): when reading `.state/treeState` fails because the file
does not exist, `sequenceBatch` and `buildTree` proceed exactly as if the
stored size were 0; construction via `initialise` (with `create = false`)
instead fails with an error. -/
theorem treeState_absent_means_size0 (st : LogState) (now t : Nat)
    (entries : List Entry) (bh : BundleHasherFunc) (ncp : Option NewCPFunc)
    (h : lookupFS st.fs tsPath = none) :
    sequenceBatch st now entries = seqAtSize st now entries 0
    ∧ buildTree bh st now t = buildAtSize bh st now t 0
    ∧ ∃ e, initialise false ncp now st.fs = .error e := by
  have hrd : readTreeState st.fs = .error .notExist := by
    unfold readTreeState readFileM
    rw [h]
  have h0 : readSizeOr0 st.fs = .ok 0 := by
    unfold readSizeOr0
    rw [hrd]
  refine ⟨?_, ?_, ?_⟩
  · unfold sequenceBatch
    rw [h0]
  · unfold buildTree
    rw [h0]
  · rcases hev : ensureVersion st.fs 1 now with e | fs2
    · exact ⟨e, by unfold initialise; simp only [if_neg Bool.false_ne_true]; rw [hev]⟩
    · have hl2 : lookupFS fs2 tsPath = none := by
        rw [lookupFS_ensureVersion st.fs fs2 1 now hev tsPath (by decide)
          (by decide)]
        exact h
      have hrd2 : readTreeState fs2 = .error .notExist := by
        unfold readTreeState readFileM
        rw [hl2]
      exact ⟨.notExist, by
        unfold initialise
        simp only [if_neg Bool.false_ne_true]
        rw [hev]
        simp [hrd2]⟩

theorem treeState_absent_means_size0_witness :
    lookupFS (⟨[], []⟩ : LogState).fs tsPath = none ∧
      (sequenceBatch ⟨[], []⟩ 0 [] = seqAtSize ⟨[], []⟩ 0 [] 0
        ∧ buildTree (fun _ => .ok []) ⟨[], []⟩ 0 0 =
            buildAtSize (fun _ => .ok []) ⟨[], []⟩ 0 0 0
        ∧ ∃ e, initialise false none 0 (⟨[], []⟩ : LogState).fs = .error e) :=
  ⟨by decide,
    treeState_absent_means_size0 ⟨[], []⟩ 0 0 [] (fun _ => .ok []) none
      (by decide)⟩

theorem publishCheckpoint_throttles_witness :
    lookupFS [(cpPath, FNode.file (.raw [1]) 5)] cpPath =
        some (.file (.raw [1]) 5) ∧
      publishCheckpoint (fun _ _ => none) 6 10
          [(cpPath, FNode.file (.raw [1]) 5)] =
        .ok [(cpPath, FNode.file (.raw [1]) 5)] :=
  ⟨by decide,
    (publishCheckpoint_throttles 6 10).1 (fun _ _ => none)
      [(cpPath, FNode.file (.raw [1]) 5)] (.raw [1]) 5 (by decide) (by decide)⟩

theorem seqLoop_spec (datas : List (List Nat)) : ∀ (buf : List Nat)
    (bIdx cnt : Nat), cnt < entryBundleWidth →
    ((seqLoop datas buf bIdx cnt).1.map (fun w => (w.idx, w.par)) =
      (List.range ((cnt + datas.length) / entryBundleWidth)).map
        (fun j => (bIdx + j, 0)))
    ∧ (seqLoop datas buf bIdx cnt).2.2.1 =
        bIdx + (cnt + datas.length) / entryBundleWidth
    ∧ (seqLoop datas buf bIdx cnt).2.2.2 =
        (cnt + datas.length) % entryBundleWidth := by
  induction datas with
  | nil =>
    intro buf bIdx cnt hc
    have h1 : cnt / entryBundleWidth = 0 := Nat.div_eq_of_lt hc
    have h2 : cnt % entryBundleWidth = cnt := Nat.mod_eq_of_lt hc
    simp [seqLoop, h1, h2]
  | cons d ds ih =>
    intro buf bIdx cnt hc
    simp only [seqLoop]
    by_cases h256 : cnt + 1 = entryBundleWidth
    · rw [if_pos h256]
      obtain ⟨ihm, ihb, ihc⟩ := ih [] (bIdx + 1) 0 (by simp [entryBundleWidth])
      have hk : (cnt + (d :: ds).length) / entryBundleWidth =
          (0 + ds.length) / entryBundleWidth + 1 := by
        simp only [entryBundleWidth] at h256 ⊢
        simp only [List.length_cons]
        omega
      have hc2 : (cnt + (d :: ds).length) % entryBundleWidth =
          (0 + ds.length) % entryBundleWidth := by
        simp only [entryBundleWidth] at h256 ⊢
        simp only [List.length_cons]
        omega
      refine ⟨?_, ?_, ?_⟩
      · rw [List.map_cons, ihm, hk, List.range_succ_eq_map, List.map_cons,
          List.map_map]
        refine congrArg₂ List.cons (by simp) ?_
        refine List.map_congr_left fun j _ => ?_
        simp only [Function.comp]
        refine congrArg₂ Prod.mk (by omega) rfl
      · simp only [ihb, hk]
        omega
      · simp only [ihc, hc2]
    · rw [if_neg h256]
      have hc2 : cnt + 1 < entryBundleWidth := by
        simp only [entryBundleWidth] at hc h256 ⊢
        omega
      obtain ⟨ihm, ihb, ihc⟩ := ih (buf ++ d) bIdx (cnt + 1) hc2
      have hs : cnt + 1 + ds.length = cnt + (d :: ds).length := by
        simp only [List.length_cons]
        omega
      rw [hs] at ihm ihb ihc
      exact ⟨ihm, ihb, ihc⟩

theorem seqLoop_buf (datas : List (List Nat)) : ∀ (buf : List Nat)
    (bIdx cnt : Nat),
    ((seqLoop datas buf bIdx cnt).1 = [] →
      (seqLoop datas buf bIdx cnt).2.1 = buf ++ datas.flatten)
    ∧ (∀ w ws, (seqLoop datas buf bIdx cnt).1 = w :: ws → buf <+: w.data) := by
  induction datas with
  | nil =>
    intro buf bIdx cnt
    refine ⟨fun _ => by simp [seqLoop], fun w ws h => by simp [seqLoop] at h⟩
  | cons d ds ih =>
    intro buf bIdx cnt
    simp only [seqLoop]
    by_cases h256 : cnt + 1 = entryBundleWidth
    · rw [if_pos h256]
      refine ⟨fun h => by simp at h, fun w ws h => ?_⟩
      have hw : w = ⟨bIdx, 0, buf ++ d⟩ := by
        injection h with h1 _
        exact h1.symm
      rw [hw]
      exact List.prefix_append buf d
    · rw [if_neg h256]
      obtain ⟨ih1, ih2⟩ := ih (buf ++ d) bIdx (cnt + 1)
      refine ⟨fun h => ?_, fun w ws h => ?_⟩
      · rw [ih1 h, List.flatten_cons, List.append_assoc]
      · exact (List.prefix_append buf d).trans (ih2 w ws h)

theorem bundleWrites_spec (size : Nat) (seed : List Nat)
    (datas : List (List Nat)) :
    ∃ ws, bundleWrites size seed datas = .ok ws ∧
      ws.map (fun w => (w.idx, w.par)) =
        ((List.range ((size % entryBundleWidth + datas.length) /
            entryBundleWidth)).map
          (fun j => (size / entryBundleWidth + j, 0)))
        ++ (if (size + datas.length) % entryBundleWidth = 0 then []
            else [(size / entryBundleWidth +
                (size % entryBundleWidth + datas.length) / entryBundleWidth,
              (size + datas.length) % entryBundleWidth)])
      ∧ (∀ w ws', ws = w :: ws' → seed <+: w.data) := by
  have hcnt : size % entryBundleWidth < entryBundleWidth :=
    Nat.mod_lt _ (by simp [entryBundleWidth])
  obtain ⟨hm, hb, hc⟩ := seqLoop_spec datas seed
    (size / entryBundleWidth) (size % entryBundleWidth) hcnt
  obtain ⟨hbuf, hpre⟩ := seqLoop_buf datas seed
    (size / entryBundleWidth) (size % entryBundleWidth)
  have hmod : (size % entryBundleWidth + datas.length) % entryBundleWidth =
      (size + datas.length) % entryBundleWidth := by
    simp only [entryBundleWidth]
    omega
  have hfin : (size + datas.length) % entryBundleWidth < entryBundleWidth := by
    exact Nat.mod_lt _ (by simp [entryBundleWidth])
  unfold bundleWrites
  rw [hc, hb, hmod]
  by_cases hzero : (size + datas.length) % entryBundleWidth = 0
  · rw [hzero]
    unfold finishBatch
    simp only [gt_iff_lt, Nat.lt_irrefl, if_false]
    refine ⟨_, rfl, ?_, ?_⟩
    · rw [List.append_nil, hm]
      simp
    · intro w ws' hws
      rw [List.append_nil] at hws
      exact hpre w ws' hws
  · unfold finishBatch
    rw [if_pos (Nat.pos_of_ne_zero hzero),
      if_neg (by exact Nat.not_lt.mpr (Nat.le_of_lt hfin))]
    refine ⟨_, rfl, ?_, ?_⟩
    · rw [List.map_append, hm, if_neg hzero]
      simp
    · intro w ws' hws
      rcases hloop : (seqLoop datas seed (size / entryBundleWidth)
          (size % entryBundleWidth)).1 with _ | ⟨w0, rest⟩
      · rw [hloop] at hws
        simp only [List.nil_append] at hws
        injection hws with hw _
        subst hw
        simp only [hbuf hloop]
        exact List.prefix_append seed datas.flatten
      · rw [hloop] at hws
        simp only [List.cons_append] at hws
        injection hws with hw _
        subst hw
        exact hpre _ _ hloop

/-- C2: for every non-empty batch and starting size, `sequenceBatch`
starts at bundle index `size / 256` with in-bundle count `size % 256`;
when that count is positive it seeds its buffer from the existing partial
bundle at that index (whose bytes prefix the first bundle written); it
emits full bundles (suffix 0) at consecutive indices each time the count
reaches 256; and it ends with exactly one trailing partial bundle, of
suffix `(size + n) % 256`, precisely when that value is non-zero. -/
theorem sequenceBatch_bundle_layout (fs : FS) (size : Nat)
    (entries : List Entry) (seed : List Nat)
    (_hne : entries ≠ [])
    (hseed : seedBundle fs size = .ok seed) :
    (size % entryBundleWidth > 0 →
      readFileM fs (entriesPath (size / entryBundleWidth)
        (size % entryBundleWidth)) = .ok (.raw seed))
    ∧ ∃ ws, batchWrites fs size entries = .ok ws ∧
        ws.map (fun w => (w.idx, w.par)) =
          ((List.range ((size % entryBundleWidth + entries.length) /
              entryBundleWidth)).map
            (fun j => (size / entryBundleWidth + j, 0)))
          ++ (if (size + entries.length) % entryBundleWidth = 0 then []
              else [(size / entryBundleWidth +
                  (size % entryBundleWidth + entries.length) /
                    entryBundleWidth,
                (size + entries.length) % entryBundleWidth)])
        ∧ (∀ w ws', ws = w :: ws' → seed <+: w.data) := by
  constructor
  · intro hgt
    unfold seedBundle at hseed
    rw [if_pos hgt] at hseed
    split at hseed
    · cases hseed
    · next heq =>
      injection hseed with h
      subst h
      exact heq
    · cases hseed
  · have hlen : (entries.enum.map fun p => p.2.bundleData (size + p.1)).length
        = entries.length := by
      simp
    obtain ⟨ws, hok, hmap, hpre⟩ := bundleWrites_spec size seed
      (entries.enum.map fun p => p.2.bundleData (size + p.1))
    refine ⟨ws, ?_, ?_, hpre⟩
    · unfold batchWrites
      rw [hseed]
      exact hok
    · rw [hmap, hlen]

theorem sequenceBatch_bundle_layout_witness :
    ([(⟨fun _ => [5], Hash.leaf [5]⟩ : Entry)] ≠ [])
    ∧ seedBundle [] 0 = .ok []
    ∧ ((0 % entryBundleWidth > 0 →
        readFileM [] (entriesPath (0 / entryBundleWidth)
          (0 % entryBundleWidth)) = .ok (.raw []))
      ∧ ∃ ws, batchWrites [] 0 [⟨fun _ => [5], Hash.leaf [5]⟩] = .ok ws ∧
          ws.map (fun w => (w.idx, w.par)) =
            ((List.range ((0 % entryBundleWidth + 1) /
                entryBundleWidth)).map
              (fun j => (0 / entryBundleWidth + j, 0)))
            ++ (if (0 + 1) % entryBundleWidth = 0 then []
                else [(0 / entryBundleWidth +
                    (0 % entryBundleWidth + 1) / entryBundleWidth,
                  (0 + 1) % entryBundleWidth)])
          ∧ (∀ w ws', ws = w :: ws' → ([] : List Nat) <+: w.data)) :=
  ⟨List.cons_ne_nil _ _, rfl,
    sequenceBatch_bundle_layout [] 0 [⟨fun _ => [5], Hash.leaf [5]⟩] []
      (List.cons_ne_nil _ _) rfl⟩

theorem readFileM_error_eq (fs : FS) (p : String) (e : Err)
    (h : readFileM fs p = .error e) : e = .notExist := by
  unfold readFileM at h
  split at h
  · injection h with h
    exact h.symm
  · cases h
  · split at h
    · cases h
    · injection h with h
      exact h.symm

theorem readTreeState_error_eq (fs : FS) (e : Err)
    (h : readTreeState fs = .error e) : e = .notExist ∨ e = .unmarshalErr := by
  unfold readTreeState at h
  split at h
  · next e' heq =>
    injection h with h
    subst h
    exact .inl (readFileM_error_eq fs tsPath _ heq)
  · cases h
  · injection h with h
    exact .inr h.symm

theorem readSizeOr0_error_eq (fs : FS) (e : Err)
    (h : readSizeOr0 fs = .error e) : e = .unmarshalErr := by
  unfold readSizeOr0 at h
  split at h
  · cases h
  · cases h
  · next e' hnot hscrut =>
    injection h with h
    subst h
    rcases readTreeState_error_eq fs e' hscrut with h1 | h1
    · exact absurd h1 hnot
    · exact h1

theorem seedBundle_not_logic (fs : FS) (size : Nat) :
    seedBundle fs size ≠ .error .logicError := by
  unfold seedBundle
  split
  · split
    · next heq =>
      intro h
      injection h with h
      exact Err.noConfusion (h ▸ readFileM_error_eq _ _ _ heq)
    · intro h
      cases h
    · intro h
      injection h with h
      cases h
  · intro h
    cases h

theorem Integrate_error_eq (prior : List Hash) (fromSeq : Nat)
    (hashes : List Hash) (e : Err)
    (h : Integrate prior fromSeq hashes = .error e) : e = .integrateErr := by
  unfold Integrate at h
  split at h
  · cases h
  · injection h with h
    exact h.symm

theorem doIntegrate_not_logic (st : LogState) (now fromSeq : Nat)
    (hashes : List Hash) :
    doIntegrate st now fromSeq hashes ≠ .error .logicError := by
  unfold doIntegrate
  split
  · next e heq =>
    intro h
    injection h with h
    exact Err.noConfusion (h ▸ Integrate_error_eq _ _ _ _ heq)
  · rw [show writeTreeState st.fs _ _ now = .ok _ from createExclusive_eq _ _ _ _]
    intro h
    cases h

theorem batchWrites_not_logic (fs : FS) (size : Nat) (entries : List Entry) :
    batchWrites fs size entries ≠ .error .logicError := by
  unfold batchWrites
  split
  · next e heq =>
    intro h
    injection h with h
    exact seedBundle_not_logic fs size (h ▸ heq)
  · next seed heq =>
    obtain ⟨ws, hok, -, -⟩ := bundleWrites_spec size seed
      (entries.enum.map fun p => p.2.bundleData (size + p.1))
    rw [hok]
    intro h
    cases h

/-- C8: the trailing-bundle guard of `sequenceBatch` refuses an over-full
bundle — any in-bundle count above 256 yields the logic error before the
bundle is written — and under the loop's own accounting that branch is
unreachable: no call of `sequenceBatch`, whatever the state or batch,
returns the logic error, and every written bundle holds at most 256
entries (full bundles are emitted exactly at count 256; the trailing one
at count `(size + n) % 256 < 256`). -/
theorem bundle_overflow_guard :
    (∀ (buf : List Nat) (bIdx cnt : Nat), entryBundleWidth < cnt →
      finishBatch buf bIdx cnt = .error .logicError)
    ∧ ∀ (st : LogState) (now : Nat) (entries : List Entry),
        sequenceBatch st now entries ≠ .error .logicError := by
  constructor
  · intro buf bIdx cnt hgt
    unfold finishBatch
    rw [if_pos (by simp only [entryBundleWidth] at hgt; omega : cnt > 0),
      if_pos hgt]
  · intro st now entries
    unfold sequenceBatch
    split
    · next e heq =>
      intro h
      injection h with h
      exact Err.noConfusion (h ▸ readSizeOr0_error_eq st.fs e heq)
    · next size heq =>
      unfold seqAtSize
      split
      · intro h
        cases h
      · split
        · next e heq2 =>
          intro h
          injection h with h
          exact batchWrites_not_logic st.fs size entries (h ▸ heq2)
        · exact doIntegrate_not_logic _ now size _

theorem bundle_overflow_guard_witness :
    entryBundleWidth < 257 ∧ finishBatch [] 0 257 = .error .logicError :=
  ⟨by decide, bundle_overflow_guard.1 [] 0 257 (by decide)⟩

theorem lookupFS_mem_keys (q : String) (n : FNode) : ∀ (fs : FS),
    lookupFS fs q = some n → q ∈ fs.map Prod.fst := by
  intro fs
  induction fs with
  | nil => intro h; cases h
  | cons hd tl ih =>
    obtain ⟨k, m⟩ := hd
    intro h
    rw [lookupFS_cons] at h
    by_cases hq : q = k
    · simp [hq]
    · rw [if_neg hq] at h
      simp [ih h]

theorem ne_append_of_data_not_prefix (a s t q : String)
    (hq : (a ++ s).data <+: q.data) (hst : ¬ (s.data <+: t.data)) :
    q ≠ a ++ t := by
  intro h
  subst h
  rw [String.data_append, String.data_append] at hq
  exact hst ((List.prefix_append_right_inj a.data).mp hq)

theorem ne_base_of_data_prefix (a s q : String)
    (hq : (a ++ s).data <+: q.data) (hs : s.data ≠ []) : q ≠ a := by
  intro h
  subst h
  rw [String.data_append] at hq
  have hlen := hq.length_le
  rw [List.length_append] at hlen
  have h0 : s.data.length = 0 := by omega
  exact hs (List.length_eq_zero.mp h0)

theorem relinkOne_eq (tPath : String) (fs : FS) (p : String) :
    relinkOne tPath fs p =
      .ok (insertFS (eraseFS fs (tPath ++ ".link")) p (.symlink tPath)) := by
  simp only [relinkOne, renameM, lookupFS_insertFS_self, eraseFS_insertFS_self,
    eraseFS_eraseFS_self]

theorem relinkFold (tPath : String) (ps : List String) : ∀ (fs : FS),
    ∃ fs', List.foldlM (relinkOne tPath) fs ps = .ok fs' ∧
      ∀ (q : String), q ≠ tPath ++ ".link" →
        ((q ∈ ps → lookupFS fs' q = some (.symlink tPath))
          ∧ (q ∉ ps → lookupFS fs' q = lookupFS fs q)) := by
  induction ps with
  | nil =>
    intro fs
    refine ⟨fs, rfl, fun q _ => ⟨fun h => absurd h (List.not_mem_nil q),
      fun _ => rfl⟩⟩
  | cons p ps ih =>
    intro fs
    obtain ⟨fs', hfold, hq⟩ :=
      ih (insertFS (eraseFS fs (tPath ++ ".link")) p (.symlink tPath))
    refine ⟨fs', ?_, ?_⟩
    · rw [List.foldlM_cons, relinkOne_eq]
      simpa [bind, Except.bind] using hfold
    · intro q hqlink
      obtain ⟨hin, hout⟩ := hq q hqlink
      constructor
      · intro hmem
        by_cases hqps : q ∈ ps
        · exact hin hqps
        · have hqp : q = p := by
            rcases List.mem_cons.mp hmem with h | h
            · exact h
            · exact absurd h hqps
          rw [hout hqps, hqp]
          exact lookupFS_insertFS_self _ _ _
      · intro hnmem
        have hqp : q ≠ p := fun h => hnmem (h ▸ List.mem_cons_self p ps)
        have hqps : q ∉ ps := fun h => hnmem (List.mem_cons_of_mem _ h)
        rw [hout hqps, lookupFS_insertFS_ne _ _ _ _ hqp, lookupFS_eraseFS,
          if_neg hqlink]

/-- C3: when `writeTile` stores a full tile (partial suffix 0), every
pre-existing file matching the partial glob at that `(level, index)` is
replaced by a symlink to the full tile's path, so that afterwards reading
any old partial path and reading the full path yield identical bytes. -/
theorem writeTile_relinks_partials (fs : FS) (level index : Nat)
    (t : List Nat) (now : Nat) (q : String) (n0 : FNode)
    (hq : lookupFS fs q = some n0)
    (hpre : (tilePath level index 0 ++ ".p/").data <+: q.data) :
    ∃ fs', writeTile fs level index 0 t now = .ok fs' ∧
      lookupFS fs' q = some (.symlink (tilePath level index 0)) ∧
      readFileM fs' q = .ok (.raw t) ∧
      readFileM fs' (tilePath level index 0) = .ok (.raw t) := by
  have hqtp : q ≠ tilePath level index 0 :=
    ne_base_of_data_prefix _ ".p/" q hpre (by decide)
  have hqtemp : q ≠ tilePath level index 0 ++ ".temp" :=
    ne_append_of_data_not_prefix _ ".p/" ".temp" q hpre (by decide)
  have hqlink : q ≠ tilePath level index 0 ++ ".link" :=
    ne_append_of_data_not_prefix _ ".p/" ".link" q hpre (by decide)
  have hq1 : lookupFS (insertFS (eraseFS fs (tilePath level index 0 ++ ".temp"))
      (tilePath level index 0) (.file (.raw t) now)) q = some n0 := by
    rw [lookupFS_insertFS_ne _ _ _ _ hqtp, lookupFS_eraseFS, if_neg hqtemp]
    exact hq
  have hmem : q ∈ globKeys
      (insertFS (eraseFS fs (tilePath level index 0 ++ ".temp"))
        (tilePath level index 0) (.file (.raw t) now))
      (tilePath level index 0 ++ ".p/") := by
    unfold globKeys
    rw [List.mem_filter]
    exact ⟨lookupFS_mem_keys q n0 _ hq1, List.isPrefixOf_iff_prefix.mpr hpre⟩
  have htpout : tilePath level index 0 ∉ globKeys
      (insertFS (eraseFS fs (tilePath level index 0 ++ ".temp"))
        (tilePath level index 0) (.file (.raw t) now))
      (tilePath level index 0 ++ ".p/") := by
    unfold globKeys
    rw [List.mem_filter]
    rintro ⟨-, hpref⟩
    have hp := (List.isPrefixOf_iff_prefix.mp hpref).length_le
    rw [String.data_append, List.length_append] at hp
    have : (".p/" : String).data.length = 3 := by decide
    omega
  obtain ⟨fs', hfold, hprop⟩ := relinkFold (tilePath level index 0)
    (globKeys (insertFS (eraseFS fs (tilePath level index 0 ++ ".temp"))
        (tilePath level index 0) (.file (.raw t) now))
      (tilePath level index 0 ++ ".p/"))
    (insertFS (eraseFS fs (tilePath level index 0 ++ ".temp"))
      (tilePath level index 0) (.file (.raw t) now))
  have hql : lookupFS fs' q = some (.symlink (tilePath level index 0)) :=
    (hprop q hqlink).1 hmem
  have htplink : tilePath level index 0 ≠ tilePath level index 0 ++ ".link" := by
    intro h
    have hlen : (tilePath level index 0).data.length =
        (tilePath level index 0 ++ ".link").data.length := by rw [← h]
    rw [String.data_append, List.length_append] at hlen
    have h5 : (".link" : String).data.length = 5 := by decide
    omega
  have htl : lookupFS fs' (tilePath level index 0) =
      some (.file (.raw t) now) := by
    rw [(hprop (tilePath level index 0) htplink).2 htpout]
    exact lookupFS_insertFS_self _ _ _
  refine ⟨fs', ?_, hql, ?_, ?_⟩
  · unfold writeTile
    rw [createExclusive_eq]
    exact hfold
  · unfold readFileM
    rw [hql]
    simp [htl]
  · unfold readFileM
    rw [htl]

theorem writeTile_relinks_partials_witness :
    lookupFS [("tile/0/000.p/1", FNode.file (.raw [9]) 0)] "tile/0/000.p/1" =
        some (.file (.raw [9]) 0) ∧
      (tilePath 0 0 0 ++ ".p/").data <+: ("tile/0/000.p/1" : String).data ∧
      ∃ fs', writeTile [("tile/0/000.p/1", FNode.file (.raw [9]) 0)] 0 0 0
          [1, 2] 7 = .ok fs' ∧
        lookupFS fs' "tile/0/000.p/1" = some (.symlink (tilePath 0 0 0)) ∧
        readFileM fs' "tile/0/000.p/1" = .ok (.raw [1, 2]) ∧
        readFileM fs' (tilePath 0 0 0) = .ok (.raw [1, 2]) :=
  ⟨by decide, by decide,
    writeTile_relinks_partials [("tile/0/000.p/1", FNode.file (.raw [9]) 0)]
      0 0 [1, 2] 7 "tile/0/000.p/1" (.file (.raw [9]) 0) (by decide) (by decide)⟩

theorem readTreeState_of_lookup (fs : FS) (s : Nat) (r : Hash) (m : Nat)
    (h : lookupFS fs tsPath = some (.file (.state s r) m)) :
    readTreeState fs = .ok (s, r) := by
  unfold readTreeState readFileM
  rw [h]

theorem publishInner_lookup_tsPath (ncp : NewCPFunc) (now : Nat)
    (fs fs1 : FS) (h : publishInner ncp now fs = .ok fs1) :
    lookupFS fs1 tsPath = lookupFS fs tsPath := by
  unfold publishInner at h
  split at h
  · cases h
  · split at h
    · cases h
    · rw [createExclusive_eq] at h
      injection h with h
      subst h
      rw [lookupFS_insertFS_ne _ _ _ _ (by decide), lookupFS_eraseFS,
        if_neg (by decide)]

theorem publishCheckpoint_lookup_tsPath (ncp : NewCPFunc) (now stale : Nat)
    (fs fs1 : FS) (h : publishCheckpoint ncp now stale fs = .ok fs1) :
    lookupFS fs1 tsPath = lookupFS fs tsPath := by
  unfold publishCheckpoint at h
  split at h
  · exact publishInner_lookup_tsPath ncp now fs fs1 h
  · split at h
    · injection h with h
      subst h
      rfl
    · exact publishInner_lookup_tsPath ncp now fs fs1 h

theorem initialise_true_ok_state (ncp : Option NewCPFunc) (now : Nat)
    (fs fs' : FS) (h : initialise true ncp now fs = .ok fs') :
    readTreeState fs' = .ok (0, .empty) := by
  unfold initialise at h
  rw [if_pos rfl] at h
  rw [show writeTreeState fs 0 Hash.empty now =
      .ok (insertFS (eraseFS fs (tsPath ++ ".temp")) tsPath
        (.file (.state 0 .empty) now)) from createExclusive_eq _ _ _ _] at h
  have main : ∀ fs1 : FS,
      lookupFS fs1 tsPath = some (.file (.state 0 .empty) now) →
      ((match ensureVersion fs1 1 now with
        | Except.error e => Except.error e
        | Except.ok fs2 =>
          match readTreeState fs2 with
          | Except.error e => Except.error e
          | Except.ok _ => Except.ok fs2) : Except Err FS) = Except.ok fs' →
      readTreeState fs' = .ok (0, .empty) := by
    intro fs1 hl hm
    split at hm
    · cases hm
    · next fs2 hev =>
      split at hm
      · cases hm
      · injection hm with hm
        subst hm
        refine readTreeState_of_lookup fs2 0 .empty now ?_
        rw [lookupFS_ensureVersion fs1 fs2 1 now hev tsPath (by decide)
          (by decide)]
        exact hl
  cases ncp with
  | none =>
    change ((match ensureVersion (insertFS (eraseFS fs (tsPath ++ ".temp"))
        tsPath (.file (.state 0 .empty) now)) 1 now with
      | Except.error e => Except.error e
      | Except.ok fs2 =>
        match readTreeState fs2 with
        | Except.error e => Except.error e
        | Except.ok _ => Except.ok fs2) : Except Err FS) = Except.ok fs' at h
    exact main _ (lookupFS_insertFS_self _ _ _) h
  | some f =>
    change ((match publishCheckpoint f now 0 (insertFS
        (eraseFS fs (tsPath ++ ".temp")) tsPath
        (.file (.state 0 .empty) now)) with
      | Except.error e => Except.error e
      | Except.ok fs1 =>
        match ensureVersion fs1 1 now with
        | Except.error e => Except.error e
        | Except.ok fs2 =>
          match readTreeState fs2 with
          | Except.error e => Except.error e
          | Except.ok _ => Except.ok fs2) : Except Err FS) = Except.ok fs' at h
    split at h
    · cases h
    · next fs1 hpub =>
      refine main fs1 ?_ h
      rw [publishCheckpoint_lookup_tsPath f now 0 _ fs1 hpub]
      exact lookupFS_insertFS_self _ _ _

theorem doIntegrate_state (stfs : FS) (tiles : List Hash) (now : Nat)
    (hashes : List Hash) (st' : LogState)
    (h : doIntegrate ⟨stfs, tiles⟩ now tiles.length hashes = .ok st') :
    readTreeState st'.fs = .ok (st'.tiles.length, mth st'.tiles) := by
  unfold doIntegrate at h
  rw [show Integrate tiles tiles.length hashes =
      .ok ((tiles ++ hashes).length, mth (tiles ++ hashes), tiles ++ hashes)
      from by unfold Integrate; rw [if_pos rfl]] at h
  change ((match writeTreeState stfs (tiles ++ hashes).length
      (mth (tiles ++ hashes)) now with
    | Except.error e => Except.error e
    | Except.ok fs2 => Except.ok (⟨fs2, tiles ++ hashes⟩ : LogState)) :
      Except Err LogState) = Except.ok st' at h
  rw [show writeTreeState stfs (tiles ++ hashes).length
      (mth (tiles ++ hashes)) now =
      .ok (insertFS (eraseFS stfs (tsPath ++ ".temp")) tsPath
        (.file (.state (tiles ++ hashes).length (mth (tiles ++ hashes))) now))
      from createExclusive_eq _ _ _ _] at h
  change Except.ok (⟨insertFS (eraseFS stfs (tsPath ++ ".temp")) tsPath
      (.file (.state (tiles ++ hashes).length (mth (tiles ++ hashes))) now),
      tiles ++ hashes⟩ : LogState) = .ok st' at h
  injection h with h
  subst h
  exact readTreeState_of_lookup _ _ _ _ (lookupFS_insertFS_self _ _ _)

/-- C1: after every successful batch — `sequenceBatch` or `buildTree`
completing without error, starting from a freshly created log — the
stored tree state satisfies: the root equals the RFC 6962 Merkle root
over the leaf hashes of the first `size` sequenced entries (`st.tiles`
is the leaf-hash list the tile store covers), for every reachable state
including size 0, where the root is the hash of the empty string. -/
theorem reachable_root_is_mth (st : LogState) (h : Reachable st) :
    readTreeState st.fs = .ok (st.tiles.length, mth st.tiles) := by
  induction h with
  | init ncp now fs' hinit =>
    exact initialise_true_ok_state ncp now [] fs' hinit
  | seq st st' now entries hr hstep ih =>
    have hsz : readSizeOr0 st.fs = .ok st.tiles.length := by
      unfold readSizeOr0
      rw [ih]
    unfold sequenceBatch at hstep
    rw [hsz] at hstep
    change seqAtSize st now entries st.tiles.length = .ok st' at hstep
    unfold seqAtSize at hstep
    split at hstep
    · injection hstep with hstep
      subst hstep
      exact ih
    · split at hstep
      · cases hstep
      · exact doIntegrate_state _ st.tiles now _ st' hstep
  | build bh st st' now target hr hstep ih =>
    have hsz : readSizeOr0 st.fs = .ok st.tiles.length := by
      unfold readSizeOr0
      rw [ih]
    unfold buildTree at hstep
    rw [hsz] at hstep
    change buildAtSize bh st now target st.tiles.length = .ok st' at hstep
    unfold buildAtSize at hstep
    split at hstep
    · cases hstep
    · exact doIntegrate_state st.fs st.tiles now _ st' hstep

theorem reachable_root_is_mth_witness :
    readTreeState (⟨[(versionPath, FNode.file (.nat 1) 0),
        (tsPath, FNode.file (.state 0 .empty) 0)], []⟩ : LogState).fs =
      .ok ((([] : List Hash)).length, mth []) :=
  reachable_root_is_mth _ (Reachable.init none 0
    [(versionPath, FNode.file (.nat 1) 0),
      (tsPath, FNode.file (.state 0 .empty) 0)] (by decide))

end Posix
